import Mathlib

/-!
# Verification of the StubHub price-scraper core (`stubhubScrape.py`)

A shallow embedding of the scraper's pure core: the CSV-row dictionaries,
the price regex and canonical money formatting of `extract_event_details`,
the history record of `save_price_to_csv`, the all-time-low aggregation of
`get_all_time_lows`, and the snapshot merge of `update_csv`.  Python dicts
become association lists (insertion ordered, first-key lookup, in-place
update of the first matching key, append on fresh keys), Python floats on
price values become exact rationals, and `datetime.now()` becomes an
explicit `now` argument.
-/

/-- A Python dict with string keys and string values (one CSV row), as an
insertion-ordered association list. -/
abbrev Dict := List (String × String)

/-- `d.get(k)`: the value of the first binding of `k`, if any. -/
def dGet (d : Dict) (k : String) : Option String :=
  (d.find? (fun p => p.1 == k)).map (fun p => p.2)

/-- `d.get(k, v0)`: lookup with a default. -/
def dGetD (d : Dict) (k : String) (v0 : String) : String :=
  (dGet d k).getD v0

/-- `d[k] = v`: update the first binding of `k` in place, or append a new
binding at the end (Python dicts keep insertion order). -/
def dSet : Dict → String → String → Dict
  | [], k, v => [(k, v)]
  | (k1, v1) :: t, k, v =>
    if k1 == k then (k1, v) :: t else (k1, v1) :: dSet t k v

theorem dGet_cons (k2 v2 : String) (t : Dict) (k1 : String) :
    dGet ((k2, v2) :: t) k1 = if k2 = k1 then some v2 else dGet t k1 := by
  by_cases h : k2 = k1
  · rw [dGet, List.find?_cons_of_pos _ (by simpa using h)]
    simp [h]
  · rw [dGet, List.find?_cons_of_neg _ (by simpa using h)]
    simp [h, dGet]

theorem dGet_dSet (d : Dict) (k k1 : String) (v : String) :
    dGet (dSet d k v) k1 = if k1 = k then some v else dGet d k1 := by
  induction d with
  | nil =>
    by_cases h : k1 = k
    · simp [dSet, dGet_cons, h]
    · have h4 : ¬ k = k1 := fun hc => h hc.symm
      simp [dSet, dGet_cons, h, h4, dGet]
  | cons p t ih =>
    obtain ⟨k2, v2⟩ := p
    by_cases h2 : k2 = k
    · rw [dSet, if_pos (by simpa using h2)]
      by_cases h : k1 = k
      · have h4 : k2 = k1 := by rw [h2, h]
        rw [dGet_cons, if_pos h4, if_pos h]
      · have h4 : ¬ k2 = k1 := fun hc => h (hc.symm.trans h2)
        rw [dGet_cons, if_neg h4, dGet_cons, if_neg h4, if_neg h]
    · rw [dSet, if_neg (by simpa using h2)]
      by_cases h3 : k2 = k1
      · have h4 : ¬ k1 = k := fun hc => h2 (h3.trans hc)
        rw [dGet_cons, if_pos h3, dGet_cons, if_pos h3, if_neg h4]
      · rw [dGet_cons, if_neg h3, ih, dGet_cons, if_neg h3]

theorem dSet_of_dGet_eq (d : Dict) (k v : String) (h : dGet d k = some v) :
    dSet d k v = d := by
  induction d with
  | nil => simp [dGet, List.find?] at h
  | cons p t ih =>
    obtain ⟨k2, v2⟩ := p
    by_cases h2 : k2 = k
    · subst h2
      rw [dGet_cons, if_pos rfl] at h
      simp only [Option.some_inj] at h
      simp [dSet, h]
    · rw [dGet_cons, if_neg h2] at h
      have hne : ¬(k2 == k) = true := by simp [h2]
      simp only [dSet, hne, if_false, Bool.false_eq_true]
      rw [ih h]

/-- Whitespace as recognized by Python's `str.strip()` on ASCII text. -/
def isSpc (c : Char) : Bool :=
  c = ' ' || c = '\t' || c = '\n' || c = '\r' || c = '\x0b' || c = '\x0c'

/-- Drop leading whitespace. -/
def trimLead (l : List Char) : List Char := l.dropWhile isSpc

/-- Python `str.strip()` on the character list: drop leading and trailing
whitespace. -/
def stripL (l : List Char) : List Char :=
  ((trimLead ((trimLead l).reverse)).reverse)

/-- Python `str.strip()`. -/
def pyStrip (s : String) : String := ⟨stripL s.data⟩

/-- Python `str.lower()` (ASCII). -/
def lowerStr (s : String) : String := ⟨s.data.map Char.toLower⟩

/-- Python's substring test `pat in l` on character lists. -/
def hasSubstr (pat : List Char) : List Char → Bool
  | [] => pat.isEmpty
  | c :: t => pat.isPrefixOf (c :: t) || hasSubstr pat t

/-- The decimal digit character for `d < 10`. -/
def digitChar : ℕ → Char
  | 0 => '0' | 1 => '1' | 2 => '2' | 3 => '3' | 4 => '4'
  | 5 => '5' | 6 => '6' | 7 => '7' | 8 => '8' | 9 => '9'
  | _ => '0'

/-- Numeric value of a digit character. -/
def charVal (c : Char) : ℕ := c.toNat - 48

/-- Value of a digit string read left to right. -/
def valDigits (cs : List Char) : ℕ :=
  cs.foldl (fun a c => 10 * a + charVal c) 0

/-- Fuel-driven digit expansion (structural recursion, so that concrete
instances evaluate by kernel reduction). -/
def digitsAux : ℕ → ℕ → List ℕ
  | 0, m => [m]
  | fuel + 1, m => if m < 10 then [m] else digitsAux fuel (m / 10) ++ [m % 10]

/-- The decimal digits of `m`, most significant first (always nonempty). -/
def digitsOf (m : ℕ) : List ℕ := digitsAux m m

theorem digitsAux_congr (f1 : ℕ) : ∀ f2 m, m ≤ f1 → m ≤ f2 →
    digitsAux f1 m = digitsAux f2 m := by
  induction f1 with
  | zero =>
    intro f2 m h1 _
    interval_cases m
    cases f2 <;> simp [digitsAux]
  | succ f ih =>
    intro f2 m h1 h2
    cases f2 with
    | zero =>
      interval_cases m
      simp [digitsAux]
    | succ g =>
      by_cases hm : m < 10
      · simp [digitsAux, hm]
      · simp only [digitsAux, hm, if_false]
        rw [ih g (m / 10) (by omega) (by omega)]

/-- The intended recurrence for `digitsOf`. -/
theorem digitsOf_eq (m : ℕ) :
    digitsOf m = if m < 10 then [m] else digitsOf (m / 10) ++ [m % 10] := by
  cases m with
  | zero => simp [digitsOf, digitsAux]
  | succ f =>
    by_cases hm : f + 1 < 10
    · simp [digitsOf, digitsAux, hm]
    · simp only [digitsOf, digitsAux, hm, if_false]
      rw [digitsAux_congr f ((f + 1) / 10) ((f + 1) / 10) (by omega) le_rfl]

/-- Insert a thousands separator after every third character of a reversed
digit list (the reversed form of Python's `,` format grouping). -/
def group3R : List Char → List Char
  | a :: b :: c :: d :: rest => a :: b :: c :: ',' :: group3R (d :: rest)
  | l => l

/-- `m` rendered with comma thousands separators, as in Python's `,d`
grouping of the integer part of `,.2f`. -/
def commaFmt (m : ℕ) : List Char :=
  (group3R ((digitsOf m).map digitChar).reverse).reverse

/-- Two-digit rendering of a cents remainder `r < 100`. -/
def pad2 (r : ℕ) : List Char := [digitChar (r / 10), digitChar (r % 10)]

/-- `f"${v:,.2f}"` for the exact amount of `n` cents: the canonical price
string the scraper stores (`extract_event_details` line 222 and
`update_csv` lines 335 and 354). -/
def fmtCents (n : ℕ) : String :=
  ⟨'$' :: (commaFmt (n / 100) ++ '.' :: pad2 (n % 100))⟩

/-- An exact nonnegative decimal number `val / 10 ^ exp`: the value a
successful Python `float(...)` conversion of a plain decimal price string
produces.  (The Python float is modelled exactly; prices have few digits,
where double rounding is the identity on comparisons.) -/
structure DecNum where
  val : ℕ
  exp : ℕ
deriving DecidableEq, Repr

/-- The rational value of a parsed decimal. -/
def DecNum.toQ (d : DecNum) : ℚ := (d.val : ℚ) / 10 ^ d.exp

/-- Comparison of two parsed decimals, by cross multiplication. -/
def DecNum.ltB (a b : DecNum) : Bool :=
  a.val * 10 ^ b.exp < b.val * 10 ^ a.exp

theorem DecNum.ltB_iff (a b : DecNum) : a.ltB b = true ↔ a.toQ < b.toQ := by
  rw [DecNum.ltB, DecNum.toQ, DecNum.toQ, decide_eq_true_eq,
    div_lt_div_iff₀ (by positivity) (by positivity)]
  constructor
  · intro h
    exact_mod_cast h
  · intro h
    exact_mod_cast h

/-- Python `float()` on the cleaned price text, restricted to plain decimal
notation: an optional integer part and an optional fractional part, at
least one digit overall. -/
def parseDecimal (cs : List Char) : Option DecNum :=
  let ip := cs.takeWhile Char.isDigit
  match cs.dropWhile Char.isDigit with
  | [] => if ip.isEmpty then none else some ⟨valDigits ip, 0⟩
  | '.' :: fp =>
    if fp.all Char.isDigit && !(ip.isEmpty && fp.isEmpty) then
      some ⟨valDigits ip * 10 ^ fp.length + valDigits fp, fp.length⟩
    else none
  | _ => none

/-- The cleaning `get_all_time_lows` applies to a raw `Price` cell before
conversion: `price_str.replace('$', '').replace(',', '').strip()` followed
by `float(...)` (lines 407-408). -/
def cleanNum (s : String) : Option DecNum :=
  parseDecimal (stripL (s.data.filter (fun c => !(c = '$' || c = ','))))

/-- Round `100 * d` to the nearest integer number of cents, ties to even,
as Python's `,.2f` float formatting does. -/
def heCents (d : DecNum) : ℕ :=
  let n := 100 * d.val
  let den := 10 ^ d.exp
  if 2 * (n % den) < den then n / den
  else if den < 2 * (n % den) then n / den + 1
  else if n / den % 2 = 0 then n / den else n / den + 1

/-- `f"${q:,.2f}"` for a parsed price value. -/
def fmtDec (d : DecNum) : String := fmtCents (heCents d)

/-- One repetition block of the thousands part of the price regex: consume
as many `,\d{3}` groups as possible (`(?:,\d{3})*`, greedy; the following
parts of the pattern can always match empty, so PCRE backtracking never
revisits this choice).  Returns the consumed characters and the rest. -/
def commaGroups : List Char → List Char × List Char
  | x :: a :: b :: c :: rest =>
    if x = ',' && a.isDigit && b.isDigit && c.isDigit then
      let p := commaGroups rest
      (x :: a :: b :: c :: p.1, p.2)
    else ([], x :: a :: b :: c :: rest)
  | l => ([], l)

/-- The optional cents part of the price regex, `(?:\.\d{2})?`. -/
def centsPart : List Char → List Char
  | c :: a :: b :: _ =>
    if c = '.' && a.isDigit && b.isDigit then [c, a, b] else []
  | _ => []

/-- Capture group 1 of `\$\s?(\d{1,3}(?:,\d{3})*(?:\.\d{2})?)` matched at
the position just after a `\$` and the optional whitespace: one to three
greedy digits, then comma groups, then optional cents. -/
def captureBody (l : List Char) : Option (List Char) :=
  let d1 := (l.takeWhile Char.isDigit).take 3
  if d1.isEmpty then none
  else
    let rest := l.drop d1.length
    let g := commaGroups rest
    some (d1 ++ g.1 ++ centsPart g.2)

/-- Match the price pattern right after a literal `$`: `\s?` then the
capture group.  The optional whitespace is taken greedily; if no digit
follows it the engine backtracks to the zero-whitespace branch, which then
also fails, so the position fails. -/
def matchAfterDollar (l : List Char) : Option (List Char) :=
  match l with
  | [] => none
  | c :: rest =>
    if c.isDigit then captureBody (c :: rest)
    else if isSpc c then
      match rest with
      | d :: _ => if d.isDigit then captureBody rest else none
      | [] => none
    else none

/-- `re.search` of the compiled pattern
`\$\s?(\d{1,3}(?:,\d{3})*(?:\.\d{2})?)` (line 214): the capture group of
the leftmost match, scanning start positions left to right. -/
def findPriceCapture : List Char → Option (List Char)
  | [] => none
  | c :: rest =>
    if c = '$' then
      match matchAfterDollar rest with
      | some cap => some cap
      | none => findPriceCapture rest
    else findPriceCapture rest

/-- `float(price_match.group(1).replace(',', ''))` in cents: strip the
thousands separators from a captured price string and read it as an exact
amount of cents (line 221-222). -/
def capturedCents (cap : List Char) : ℕ :=
  let nc := cap.filter (fun c => c ≠ ',')
  let ip := nc.takeWhile Char.isDigit
  match nc.dropWhile Char.isDigit with
  | '.' :: fp => 100 * valDigits ip + valDigits fp
  | _ => 100 * valDigits ip

/-- The numeric cents amount extracted from a page text by the price
pattern, if the pattern matches anywhere. -/
def findPriceCents (l : List Char) : Option ℕ :=
  (findPriceCapture l).map capturedCents

/-- The sold-out indicator looked for by the fallback read (line 231). -/
def soldOutPat : List Char := "sold out".data

/-- Stage 5 of `extract_event_details` (lines 211-240): poll for the
currency pattern in the price container's text; on a match, re-render the
amount canonically as `f"${float(...):,.2f}"`.  On timeout (no match), one
fallback read of the container text: if its stripped, lowercased form
contains "sold out" the price is `"Sold Out"`, otherwise `price` stays
`None`.  `none` for the container text models the container never being
found (`NoSuchElementException` both in the wait and in the fallback). -/
def priceStage (containerText : Option String) : Option String :=
  match containerText with
  | none => none
  | some t =>
    match findPriceCents t.data with
    | some n => some (fmtCents n)
    | none =>
      if hasSubstr soldOutPat (lowerStr (pyStrip t)).data then some "Sold Out"
      else none

/-- The tuple returned by `extract_event_details`: three detail fields and
an optional price string. -/
structure ExtractResult where
  title : String
  eventDate : String
  location : String
  price : Option String
deriving DecidableEq, Repr

/-- What one page presents to the staged extractor: stage 1 readiness,
stage 2 key-element visibility, the three detail texts of stage 3 (absent
= timeout), the stage 4 modal, and the price container text of stage 5. -/
structure PageEnv where
  ready : Bool
  keyVisible : Bool
  titleText : Option String
  dateText : Option String
  locText : Option String
  modalSeen : Bool
  priceText : Option String

/-- The all-`"N/A"` result returned when the key listings container never
becomes visible (line 148). -/
def allNA : ExtractResult := ⟨"N/A", "N/A", "N/A", none⟩

/-- `extract_event_details` (lines 106-245) over a page environment.
Stage 1 (`readyState`) only logs; stage 2 gates everything: if the
listings container is not visible the function returns with every field
`"N/A"` and no price.  Stage 3 extracts each detail independently,
stripping it, defaulting to `"N/A"` on its own timeout; stage 4 is
opportunistic; stage 5 is `priceStage`. -/
def extract_event_details (env : PageEnv) : ExtractResult :=
  if env.keyVisible = false then allNA
  else
    { title := match env.titleText with
        | some t => pyStrip t
        | none => "N/A"
      eventDate := match env.dateText with
        | some t => pyStrip t
        | none => "N/A"
      location := match env.locText with
        | some t => pyStrip t
        | none => "N/A"
      price := priceStage env.priceText }

/-- `process_url` lines 447-449: a price of `None` is recorded as
`"Error"` for the CSVs. -/
def recordedPrice (p : Option String) : String := p.getD "Error"

/-- The `scraped_data` dict built by `process_url` (lines 430-471): `none`
for the extraction models a critical failure (`setup_driver` raised, or an
exception before `scraped_data.update`), which leaves the default
all-`"Error"` dict; otherwise the extractor's fields are filled in and a
`None` price becomes `"Error"`. -/
def processUrlRes (url : String) (r : Option ExtractResult) : Dict :=
  match r with
  | none =>
    [("URL", url), ("Event Title", "Error"), ("Date", "Error"),
     ("Location", "Error"), ("Price", "Error")]
  | some er =>
    [("URL", url), ("Event Title", er.title), ("Date", er.eventDate),
     ("Location", er.location), ("Price", recordedPrice er.price)]

/-- The history record appended by `save_price_to_csv` (lines 258-283),
with the run timestamp passed explicitly. -/
def save_price_to_csv (now url title date loc price : String) : Dict :=
  [("Time", now), ("Event Title", title), ("Date", date),
   ("Location", loc), ("Price", price), ("URL", url)]

/-- `executor.map(lambda url: process_url(url, history), urls_list)` in
`main` (lines 582-585): one result per submitted URL, in submission order;
a URL whose task fails critically still contributes its synthesized
error dict. -/
def runBatch (urls : List String) (behavior : String → Option ExtractResult) :
    List Dict :=
  urls.map (fun u => processUrlRes u (behavior u))

/-- The derived all-time-low map, URL to minimum numeric price, as an
insertion-ordered association list. -/
abbrev Lows := List (String × DecNum)

/-- Lookup in the all-time-low map (`all_time_lows.get(url)` /
`url in all_time_lows`). -/
def lowsGet (m : Lows) (u : String) : Option DecNum :=
  (m.find? (fun p => p.1 == u)).map (fun p => p.2)

/-- `all_time_lows[url] = q`: update the first binding in place or append
(Python dict assignment). -/
def lowsSet : Lows → String → DecNum → Lows
  | [], u, q => [(u, q)]
  | (u1, q1) :: t, u, q =>
    if u1 == u then (u1, q) :: t else (u1, q1) :: lowsSet t u q

/-- The numeric contribution of one history row to the all-time lows
(`get_all_time_lows` lines 399-413): its stripped URL and parsed price,
or nothing when the row is skipped — no URL, no/empty price, a price
tagged `"N/A"`/`"Sold Out"`/`"Error"` (case-insensitively), or a price
that does not convert to a number (`ValueError`). -/
def rowLow (row : Dict) : Option (String × DecNum) :=
  let url := pyStrip (dGetD row "URL" "")
  match dGet row "Price" with
  | none => none
  | some ps =>
    if url = "" || ps = "" ||
        lowerStr ps ∈ (["n/a", "sold out", "error"] : List String) then none
    else
      match cleanNum ps with
      | none => none
      | some q => some (url, q)

/-- One iteration of the `get_all_time_lows` loop: record the row's price
if it is lower than the current known low for its URL (lines 410-413). -/
def atlStep (m : Lows) (row : Dict) : Lows :=
  match rowLow row with
  | none => m
  | some (url, q) =>
    match lowsGet m url with
    | none => m ++ [(url, q)]
    | some cur => if q.ltB cur then lowsSet m url q else m

/-- `get_all_time_lows` (lines 387-426) over the already-parsed history
rows: fold the minimum-update step over the records in append order. -/
def get_all_time_lows (history : List Dict) : Lows :=
  history.foldl atlStep []

/-- The parsed `Money` prices a history holds for one URL, in record
order: exactly the values `get_all_time_lows` does not skip. -/
def moneyPrices (history : List Dict) (url : String) : List ℚ :=
  ((history.filterMap rowLow).filterMap
    (fun p => if p.1 = url then some p.2 else none)).map DecNum.toQ

/-- Running minimum of a list of rationals starting from an optional
accumulator. -/
def foldMin (acc : Option ℚ) (l : List ℚ) : Option ℚ :=
  l.foldl
    (fun a q =>
      some (match a with
        | none => q
        | some c => if q < c then q else c))
    acc

/-- Insert a string into an ascending list (Python `sorted`, via
insertion sort, on the distinct non-standard fieldnames). -/
def insSorted (x : String) : List String → List String
  | [] => [x]
  | y :: t => if x ≤ y then x :: y :: t else y :: insSorted x t

/-- Ascending sort of a list of strings. -/
def sortStrs (l : List String) : List String := l.foldr insSorted []

/-- The core snapshot schema of `update_csv` (line 364). -/
def stdFields : List String :=
  ["Time", "Event Title", "Date", "Location", "Price",
   "All Time Low Price", "URL"]

/-- The body of the existing-row loop of `update_csv` (lines 303-340) for
one row: if the row has no (stripped) URL it passes through untouched;
otherwise, if some fresh result has the same stripped URL, `Time`, `Event
Title`, `Date` and `Location` are overwritten and `Price` is overwritten
exactly when the fresh dict carries a price value (`is not None`); in
every case with a URL, the `All Time Low Price` column is refreshed from
the aggregate map, with `"N/A"` filled in when the column was missing and
the URL has no history. -/
def processRow (now : String) (fresh : List Dict) (lows : Lows)
    (row : Dict) : Dict :=
  let url := pyStrip (dGetD row "URL" "")
  if url = "" then row
  else
    let row1 :=
      match fresh.find? (fun d => url == pyStrip (dGetD d "URL" "")) with
      | some data =>
        let r1 := dSet row "Time" now
        let r2 := dSet r1 "Event Title"
          (dGetD data "Event Title" (dGetD r1 "Event Title" "N/A"))
        let r3 := dSet r2 "Date" (dGetD data "Date" (dGetD r2 "Date" "N/A"))
        let r4 := dSet r3 "Location"
          (dGetD data "Location" (dGetD r3 "Location" "N/A"))
        match dGet data "Price" with
        | some p => dSet r4 "Price" p
        | none =>
          if (dGet r4 "Price").isNone then dSet r4 "Price" "N/A" else r4
      | none => row
    match lowsGet lows url with
    | some q => dSet row1 "All Time Low Price" (fmtDec q)
    | none =>
      if (dGet row1 "All Time Low Price").isNone then
        dSet row1 "All Time Low Price" "N/A"
      else row1

/-- `urls_in_main_csv` (line 300): the stripped URLs of existing rows
whose raw `URL` cell is truthy. -/
def urlsInMain (rows : List Dict) : List String :=
  rows.filterMap (fun r =>
    match dGet r "URL" with
    | some u => if u ≠ "" then some (pyStrip u) else none
    | none => none)

/-- `scraped_urls` (line 343): the stripped URLs of fresh results whose
raw `URL` value is truthy. -/
def scrapedUrls (fresh : List Dict) : List String :=
  fresh.filterMap (fun d =>
    match dGet d "URL" with
    | some u => if u ≠ "" then some (pyStrip u) else none
    | none => none)

/-- `new_urls = scraped_urls - urls_in_main_csv` (line 344), as a
deterministic first-occurrence enumeration of the set difference. -/
def newUrls (rows fresh : List Dict) : List String :=
  (scrapedUrls fresh).dedup.filter (fun u => u ∉ urlsInMain rows)

/-- The fresh row created for a URL not present in the main CSV
(lines 345-359): built from the first fresh result with that stripped
URL. -/
def mkNewRow (now : String) (lows : Lows) (fresh : List Dict)
    (url : String) : Option Dict :=
  (fresh.find? (fun d => url == pyStrip (dGetD d "URL" ""))).map
    (fun data =>
      [("Time", now),
       ("Event Title", dGetD data "Event Title" "N/A"),
       ("Date", dGetD data "Date" "N/A"),
       ("Location", dGetD data "Location" "N/A"),
       ("Price", dGetD data "Price" "N/A"),
       ("All Time Low Price",
        match lowsGet lows url with
        | some q => fmtDec q
        | none => "N/A"),
       ("URL", url)])

/-- The in-memory result of `update_csv` (lines 299-359): every existing
row processed in order, then one new row per fresh URL absent from the
main CSV.  `now` is the shared `datetime.now()` timestamp and `lows` the
freshly recomputed all-time-low map. -/
def mergeRows (now : String) (rows fresh : List Dict) (lows : Lows) :
    List Dict :=
  rows.map (processRow now fresh lows) ++
    (newUrls rows fresh).filterMap (mkNewRow now lows fresh)

/-- The keys of a row dict, in insertion order. -/
def dictKeys (d : Dict) : List String := d.map (fun p => p.1)

/-- `final_fieldnames` of the write-back phase (lines 363-372): the
standard schema first (all of it, since `all_keys` is updated with it),
then the remaining keys of the merged rows sorted ascending. -/
def finalFieldnames (rows : List Dict) : List String :=
  stdFields ++
    sortStrs ((rows.map dictKeys).flatten.dedup.filter
      (fun f => f ∉ stdFields))

/-- One CSV line of `csv.DictWriter.writerows` with `restval=''`: the
row's value for each field, empty string when missing (lines 374-378). -/
def writeRow (fields : List String) (row : Dict) : List String :=
  fields.map (fun f => dGetD row f "")

theorem dGet_dSet_ne (d : Dict) (k k1 v : String) (h : k1 ≠ k) :
    dGet (dSet d k v) k1 = dGet d k1 := by
  rw [dGet_dSet, if_neg h]

theorem dGet_dSet_self (d : Dict) (k v : String) :
    dGet (dSet d k v) k = some v := by
  rw [dGet_dSet, if_pos rfl]

/-- C1 counterexample: with one existing row holding the good price
`"$10.00"` and a fresh batch consisting of one failed attempt for the same
URL (whose `None` price `process_url` converts to `"Error"`), the merge
replaces the good price by `"Error"`. -/
theorem c1_counterexample :
    dGet ((mergeRows "t" [[("URL", "u"), ("Price", "$10.00")]]
        [processUrlRes "u" (some allNA)] []).getD 0 []) "Price" = some "Error"
    ∧ dGet [("URL", "u"), ("Price", "$10.00")] "Price" = some "$10.00"
    ∧ dGet (processUrlRes "u" (some allNA)) "Price" = some "Error" := by
  refine ⟨?_, ?_, ?_⟩ <;> decide

/-- C1 (amended): for an existing row whose URL appears in the fresh
batch, `update_csv` overwrites `price` exactly when the first matching
fresh dict carries a price value at all (`data.get("Price") is not
None`); since `process_url` turns a failed attempt's `None` price into
the string `"Error"`, a fresh `Error` result does overwrite an existing
non-`Error` price, and only a literally absent price preserves the old
value (defaulting a missing cell to `"N/A"`). -/
theorem c1_amended_price_overwrite (now : String) (fresh : List Dict)
    (lows : Lows) (row data : Dict)
    (hurl : pyStrip (dGetD row "URL" "") ≠ "")
    (hfind : fresh.find?
      (fun d => pyStrip (dGetD row "URL" "") == pyStrip (dGetD d "URL" ""))
      = some data) :
    dGet (processRow now fresh lows row) "Price"
      = match dGet data "Price" with
        | some p => some p
        | none => some (dGetD row "Price" "N/A") := by
  unfold processRow
  rw [if_neg hurl, hfind]
  rcases hp : dGet data "Price" with _ | p <;>
    simp only [hp] <;>
    (repeat' split) <;>
    simp_all [dGet_dSet, dGetD, Option.isNone_iff_eq_none] <;>
    (cases hw : dGet row "Price" <;> simp_all)

/-- C4: on the page text `"Tickets from $1,234.56 each"` the price stage
captures `"1,234.56"` (first monetary amount, thousands separator and
cents honored), parses it to 123456 cents, i.e. the numeric value
1234.56, and the price string stored in the history record is exactly the
canonical two-decimal rendering `"$1,234.56"`. -/
theorem c4_price_extraction_concrete :
    findPriceCapture ("Tickets from $1,234.56 each").data
      = some ("1,234.56").data
    ∧ findPriceCents ("Tickets from $1,234.56 each").data = some 123456
    ∧ (123456 : ℚ) / 100 = (1234.56 : ℚ)
    ∧ priceStage (some "Tickets from $1,234.56 each") = some "$1,234.56"
    ∧ dGet (save_price_to_csv "t" "u" "T" "D" "L" "$1,234.56") "Price"
        = some "$1,234.56" := by
  refine ⟨by decide, by decide, by norm_num, by decide, by decide⟩

/-- C5 counterexample: when the price pattern never matches and the
fallback text (here `"Check back soon"`) has no sold-out indicator, the
attempt's price stays `None` and the pipeline records the outcome
`"Error"` — not a distinct `Unknown`/`"N/A"` tag as the claim states. -/
theorem c5_counterexample :
    hasSubstr soldOutPat (lowerStr (pyStrip "Check back soon")).data = false
    ∧ priceStage (some "Check back soon") = none
    ∧ dGet (processUrlRes "u" (some (extract_event_details
        ⟨true, true, none, none, none, false,
         some "Check back soon"⟩))) "Price" = some "Error" := by
  refine ⟨?_, ?_, ?_⟩ <;> decide

/-- C5 (amended): on a price-pattern timeout the extractor performs the
fallback read of the container text; if the stripped, lowercased text
contains `"sold out"` the price outcome is `"Sold Out"`, and otherwise
the price remains unset (`None`), which `process_url` then records as
`"Error"` — the code has no distinct `Unknown` outcome. -/
theorem c5_fallback_classification (t : String)
    (hnm : findPriceCents t.data = none) :
    (hasSubstr soldOutPat (lowerStr (pyStrip t)).data = true →
      priceStage (some t) = some "Sold Out")
    ∧ (hasSubstr soldOutPat (lowerStr (pyStrip t)).data = false →
      priceStage (some t) = none ∧
      recordedPrice (priceStage (some t)) = "Error") := by
  have hc : findPriceCapture t.data = none := by
    rcases h : findPriceCapture t.data with _ | c
    · rfl
    · rw [findPriceCents, h] at hnm
      simp at hnm
  constructor <;> intro h <;>
    simp [priceStage, findPriceCents, hc, h, recordedPrice]

/-- C5 witness: a concrete sold-out page text. -/
theorem c5_witness :
    findPriceCents ("Event Sold Out").data = none
    ∧ priceStage (some "Event Sold Out") = some "Sold Out" :=
  ⟨by decide,
   (c5_fallback_classification "Event Sold Out" (by decide)).1 (by decide)⟩

/-- C6: if the key listings container does not become visible within its
timeout (stage 2), the attempt aborts: every extracted field is `"N/A"`,
the price is absent, and none of the later stages (title, date, location,
modal, price) influences the result. -/
theorem c6_key_element_gate (env : PageEnv) (h : env.keyVisible = false) :
    extract_event_details env = allNA := by
  unfold extract_event_details
  rw [h]
  simp

/-- C6 witness: a page whose later stages would all succeed still yields
the all-`"N/A"` result when the key element is not visible. -/
theorem c6_witness :
    extract_event_details
      ⟨true, false, some "Title", some "Date", some "Loc", true,
       some "$5.00"⟩ = allNA :=
  c6_key_element_gate _ rfl

/-- C9: submitting any list of URLs yields exactly one scraped dict per
URL, in order; a URL whose task fails critically (no extraction result)
still yields a dict, tagged `"Error"` in its `Price` — no URL is dropped
and no failure aborts the batch. -/
theorem c9_one_result_per_url (urls : List String)
    (behavior : String → Option ExtractResult) :
    (runBatch urls behavior).length = urls.length
    ∧ ∀ i, i < urls.length →
      dGet ((runBatch urls behavior).getD i []) "URL"
        = some (urls.getD i "")
      ∧ (behavior (urls.getD i "") = none →
        dGet ((runBatch urls behavior).getD i []) "Price" = some "Error") := by
  constructor
  · simp [runBatch]
  · intro i hi
    have hb : (runBatch urls behavior).getD i []
        = processUrlRes (urls.getD i "") (behavior (urls.getD i "")) := by
      have hu : urls.get? i = some (urls.get ⟨i, hi⟩) := List.get?_eq_get hi
      rw [runBatch, List.getD, List.getD, List.get?_map, hu]
      simp
    rw [hb]
    constructor
    · cases behavior (urls.getD i "") <;>
        simp [processUrlRes, dGet_cons]
    · intro hn
      rw [hn]
      simp [processUrlRes, dGet_cons]

/-- C9 witness: two URLs, the first failing critically, still give two
results with the right URLs and an `"Error"` price for the failure. -/
theorem c9_witness :
    (runBatch ["a", "b"] (fun _ => none)).length = 2
    ∧ dGet ((runBatch ["a", "b"] (fun _ => none)).getD 0 []) "URL"
        = some "a"
    ∧ dGet ((runBatch ["a", "b"] (fun _ => none)).getD 0 []) "Price"
        = some "Error" :=
  ⟨(c9_one_result_per_url ["a", "b"] (fun _ => none)).1,
   ((c9_one_result_per_url ["a", "b"] (fun _ => none)).2 0 (by decide)).1,
   ((c9_one_result_per_url ["a", "b"] (fun _ => none)).2 0 (by decide)).2
     rfl⟩

/-- C1 witness: the amended overwrite rule at a concrete matched row whose
fresh result is an `"Error"`-priced failure. -/
theorem c1_witness :
    pyStrip (dGetD [("URL", "u"), ("Price", "$10.00")] "URL" "") ≠ ""
    ∧ dGet (processRow "t" [processUrlRes "u" (some allNA)] []
        [("URL", "u"), ("Price", "$10.00")]) "Price" = some "Error" :=
  ⟨by decide,
   by
    rw [c1_amended_price_overwrite "t" [processUrlRes "u" (some allNA)] []
      [("URL", "u"), ("Price", "$10.00")] (processUrlRes "u" (some allNA))
      (by decide) (by decide)]
    decide⟩

/-- An existing row matching no fresh result only has its all-time-low
column refreshed. -/
theorem processRow_unmatched (now : String) (fresh : List Dict)
    (lows : Lows) (row : Dict)
    (hurl : pyStrip (dGetD row "URL" "") ≠ "")
    (hnom : fresh.find?
      (fun d => pyStrip (dGetD row "URL" "") == pyStrip (dGetD d "URL" ""))
      = none) :
    processRow now fresh lows row =
      match lowsGet lows (pyStrip (dGetD row "URL" "")) with
      | some q => dSet row "All Time Low Price" (fmtDec q)
      | none =>
        if (dGet row "All Time Low Price").isNone then
          dSet row "All Time Low Price" "N/A"
        else row := by
  unfold processRow
  rw [if_neg hurl, hnom]

/-- C7: an existing snapshot row whose URL is absent from the fresh batch
keeps `Price`, `Event Title`, `Date`, `Location` and `Time` unchanged
through the merge; only its `All Time Low Price` column is refreshed from
the aggregate map (defaulting to `"N/A"` when absent both there and in
the row). -/
theorem c7_frame_unmatched_row (now : String) (rows fresh : List Dict)
    (lows : Lows) (row : Dict) (hmem : row ∈ rows)
    (hurl : pyStrip (dGetD row "URL" "") ≠ "")
    (hnom : fresh.find?
      (fun d => pyStrip (dGetD row "URL" "") == pyStrip (dGetD d "URL" ""))
      = none) :
    processRow now fresh lows row ∈ mergeRows now rows fresh lows
    ∧ dGet (processRow now fresh lows row) "Price" = dGet row "Price"
    ∧ dGet (processRow now fresh lows row) "Event Title"
        = dGet row "Event Title"
    ∧ dGet (processRow now fresh lows row) "Date" = dGet row "Date"
    ∧ dGet (processRow now fresh lows row) "Location" = dGet row "Location"
    ∧ dGet (processRow now fresh lows row) "Time" = dGet row "Time"
    ∧ dGet (processRow now fresh lows row) "All Time Low Price"
        = match lowsGet lows (pyStrip (dGetD row "URL" "")) with
          | some q => some (fmtDec q)
          | none => some (dGetD row "All Time Low Price" "N/A") := by
  have hu := processRow_unmatched now fresh lows row hurl hnom
  refine ⟨List.mem_append_left _ (List.mem_map_of_mem _ hmem),
    ?_, ?_, ?_, ?_, ?_, ?_⟩ <;>
  · rw [hu]
    rcases hl : lowsGet lows (pyStrip (dGetD row "URL" "")) with _ | q <;>
      rcases ha : dGet row "All Time Low Price" with _ | w <;>
      simp_all [dGet_dSet, dGetD]

/-- C7 witness: a row for URL `"u"` untouched by a fresh batch that only
contains URL `"v"`, with the all-time low of `"u"` being 3 dollars. -/
theorem c7_witness :
    processRow "t" [[("URL", "v"), ("Price", "$2.00")]]
        [("u", ⟨300, 2⟩)] [("URL", "u"), ("Price", "$10.00")]
      ∈ mergeRows "t" [[("URL", "u"), ("Price", "$10.00")]]
        [[("URL", "v"), ("Price", "$2.00")]] [("u", ⟨300, 2⟩)]
    ∧ dGet (processRow "t" [[("URL", "v"), ("Price", "$2.00")]]
        [("u", ⟨300, 2⟩)] [("URL", "u"), ("Price", "$10.00")]) "Price"
      = dGet [("URL", "u"), ("Price", "$10.00")] "Price" :=
  ⟨(c7_frame_unmatched_row "t" [[("URL", "u"), ("Price", "$10.00")]]
      [[("URL", "v"), ("Price", "$2.00")]] [("u", ⟨300, 2⟩)]
      [("URL", "u"), ("Price", "$10.00")]
      (by decide) (by decide) (by decide)).1,
   (c7_frame_unmatched_row "t" [[("URL", "u"), ("Price", "$10.00")]]
      [[("URL", "v"), ("Price", "$2.00")]] [("u", ⟨300, 2⟩)]
      [("URL", "u"), ("Price", "$10.00")]
      (by decide) (by decide) (by decide)).2.1⟩

/-- `processRow` only writes standard columns: any other key keeps its
value. -/
theorem dGet_processRow_ne_std (now : String) (fresh : List Dict)
    (lows : Lows) (row : Dict) (k : String) (hk : k ∉ stdFields) :
    dGet (processRow now fresh lows row) k = dGet row k := by
  simp only [stdFields, List.mem_cons, List.not_mem_nil, or_false,
    not_or] at hk
  obtain ⟨h1, h2, h3, h4, h5, h6, h7⟩ := hk
  unfold processRow
  by_cases hurl : pyStrip (dGetD row "URL" "") = ""
  · rw [if_pos hurl]
  · rw [if_neg hurl]
    (repeat' split) <;> simp_all [dGet_dSet] <;>
      (repeat' split) <;> simp_all [dGet_dSet]

theorem mem_keys_of_dGet (d : Dict) (k v : String)
    (h : dGet d k = some v) : k ∈ dictKeys d := by
  rw [dGet] at h
  rcases hf : d.find? (fun p => p.1 == k) with _ | p
  · rw [hf] at h
    simp at h
  · have hp := List.find?_some hf
    have hm := List.mem_of_find?_eq_some hf
    simp only [beq_iff_eq] at hp
    rw [dictKeys]
    exact hp ▸ List.mem_map_of_mem _ hm

theorem mem_insSorted (x y : String) (l : List String) :
    x ∈ insSorted y l ↔ x = y ∨ x ∈ l := by
  induction l with
  | nil => simp [insSorted]
  | cons z t ih =>
    by_cases h : y ≤ z
    · simp [insSorted, h]
    · simp [insSorted, h, ih]
      tauto

theorem mem_sortStrs (x : String) (l : List String) :
    x ∈ sortStrs l ↔ x ∈ l := by
  induction l with
  | nil => simp [sortStrs]
  | cons y t ih =>
    simp only [sortStrs, List.foldr] at ih ⊢
    rw [mem_insSorted, ih, List.mem_cons]

/-- C8: any non-standard column of an existing snapshot row survives the
merge with its value unchanged, appears among the rewritten file's
fieldnames, and its value is written back in the row's CSV line at that
fieldname's position. -/
theorem c8_extra_columns_preserved (now : String) (rows fresh : List Dict)
    (lows : Lows) (row : Dict) (k v : String)
    (hmem : row ∈ rows) (hk : k ∉ stdFields) (hv : dGet row k = some v) :
    dGet (processRow now fresh lows row) k = some v
    ∧ processRow now fresh lows row ∈ mergeRows now rows fresh lows
    ∧ k ∈ finalFieldnames (mergeRows now rows fresh lows)
    ∧ ∃ i, (finalFieldnames (mergeRows now rows fresh lows)).get? i = some k
        ∧ (writeRow (finalFieldnames (mergeRows now rows fresh lows))
            (processRow now fresh lows row)).get? i = some v := by
  have hpres : dGet (processRow now fresh lows row) k = some v := by
    rw [dGet_processRow_ne_std now fresh lows row k hk, hv]
  have hrmem : processRow now fresh lows row ∈ mergeRows now rows fresh lows :=
    List.mem_append_left _ (List.mem_map_of_mem _ hmem)
  have hkeys : k ∈ dictKeys (processRow now fresh lows row) :=
    mem_keys_of_dGet _ _ _ hpres
  have hfield : k ∈ finalFieldnames (mergeRows now rows fresh lows) := by
    rw [finalFieldnames, List.mem_append]
    right
    rw [mem_sortStrs, List.mem_filter]
    refine ⟨?_, by simpa using hk⟩
    rw [List.mem_dedup, List.mem_flatten]
    exact ⟨dictKeys (processRow now fresh lows row),
      List.mem_map_of_mem _ hrmem, hkeys⟩
  refine ⟨hpres, hrmem, hfield, ?_⟩
  obtain ⟨i, hi⟩ := List.mem_iff_get?.mp hfield
  refine ⟨i, hi, ?_⟩
  rw [writeRow, List.get?_map, hi]
  simp [dGetD, hpres]

/-- C8 witness: an extra column `"Notes"` on a merged row is preserved
and written back. -/
theorem c8_witness :
    dGet (processRow "t" [] [] [("URL", "u"), ("Notes", "keep me")])
        "Notes" = some "keep me"
    ∧ "Notes" ∈ finalFieldnames (mergeRows "t"
        [[("URL", "u"), ("Notes", "keep me")]] [] []) :=
  ⟨(c8_extra_columns_preserved "t" [[("URL", "u"), ("Notes", "keep me")]]
      [] [] [("URL", "u"), ("Notes", "keep me")] "Notes" "keep me"
      (by decide) (by decide) (by decide)).1,
   (c8_extra_columns_preserved "t" [[("URL", "u"), ("Notes", "keep me")]]
      [] [] [("URL", "u"), ("Notes", "keep me")] "Notes" "keep me"
      (by decide) (by decide) (by decide)).2.2.1⟩

theorem lowsGet_cons (u1 : String) (q1 : DecNum) (t : Lows) (u : String) :
    lowsGet ((u1, q1) :: t) u = if u1 = u then some q1 else lowsGet t u := by
  by_cases h : u1 = u
  · rw [lowsGet, List.find?_cons_of_pos _ (by simpa using h)]
    simp [h]
  · rw [lowsGet, List.find?_cons_of_neg _ (by simpa using h)]
    simp [h, lowsGet]

theorem lowsGet_append (m1 m2 : Lows) (u : String) :
    lowsGet (m1 ++ m2) u
      = match lowsGet m1 u with
        | some q => some q
        | none => lowsGet m2 u := by
  induction m1 with
  | nil => simp [lowsGet]
  | cons p t ih =>
    obtain ⟨u1, q1⟩ := p
    by_cases h : u1 = u
    · rw [List.cons_append, lowsGet_cons, if_pos h, lowsGet_cons, if_pos h]
    · rw [List.cons_append, lowsGet_cons, if_neg h, lowsGet_cons, if_neg h, ih]

theorem lowsGet_lowsSet (m : Lows) (u u1 : String) (q : DecNum) :
    lowsGet (lowsSet m u q) u1 = if u1 = u then some q else lowsGet m u1 := by
  induction m with
  | nil =>
    by_cases h : u1 = u
    · simp [lowsSet, lowsGet_cons, h]
    · have h4 : ¬ u = u1 := fun hc => h hc.symm
      simp [lowsSet, lowsGet_cons, h, h4, lowsGet]
  | cons p t ih =>
    obtain ⟨u2, q2⟩ := p
    by_cases h2 : u2 = u
    · rw [lowsSet, if_pos (by simpa using h2)]
      by_cases h : u1 = u
      · have h4 : u2 = u1 := by rw [h2, h]
        rw [lowsGet_cons, if_pos h4, if_pos h]
      · have h4 : ¬ u2 = u1 := fun hc => h (hc.symm.trans h2)
        rw [lowsGet_cons, if_neg h4, lowsGet_cons, if_neg h4, if_neg h]
    · rw [lowsSet, if_neg (by simpa using h2)]
      by_cases h3 : u2 = u1
      · have h4 : ¬ u1 = u := fun hc => h2 (h3.trans hc)
        rw [lowsGet_cons, if_pos h3, lowsGet_cons, if_pos h3, if_neg h4]
      · rw [lowsGet_cons, if_neg h3, ih, lowsGet_cons, if_neg h3]

/-- One minimum-update step on an optional running low. -/
def stepMin (a : Option DecNum) (q : DecNum) : Option DecNum :=
  some (match a with
    | none => q
    | some c => if q.ltB c then q else c)

/-- Running minimum over parsed decimals. -/
def dFoldMin (acc : Option DecNum) (l : List DecNum) : Option DecNum :=
  l.foldl stepMin acc

/-- The parsed prices a history contributes to one URL, in record
order. -/
def pricesD (history : List Dict) (url : String) : List DecNum :=
  (history.filterMap rowLow).filterMap
    (fun p => if p.1 = url then some p.2 else none)

theorem moneyPrices_eq (history : List Dict) (url : String) :
    moneyPrices history url = (pricesD history url).map DecNum.toQ := rfl

theorem lowsGet_atlStep (m : Lows) (row : Dict) (u : String) :
    lowsGet (atlStep m row) u
      = match rowLow row with
        | none => lowsGet m u
        | some (u1, q) =>
          if u1 = u then stepMin (lowsGet m u) q else lowsGet m u := by
  rcases hr : rowLow row with _ | ⟨u1, q⟩
  · rw [atlStep, hr]
  · rw [atlStep, hr]
    dsimp only
    rcases hm : lowsGet m u1 with _ | cur
    · by_cases h : u1 = u
      · subst h
        simp [lowsGet_append, hm, lowsGet_cons, stepMin]
      · simp only [lowsGet_append, if_neg h]
        rcases hmu : lowsGet m u with _ | w
        · simp [hmu, lowsGet_cons, h, lowsGet]
        · simp [hmu, h]
    · by_cases h : u1 = u
      · subst h
        by_cases hlt : q.ltB cur = true
        · simp [hlt, lowsGet_lowsSet, hm, stepMin]
        · simp [hlt, hm, stepMin]
      · dsimp only
        by_cases hlt : q.ltB cur = true
        · rw [if_pos hlt, if_neg h, lowsGet_lowsSet,
            if_neg (fun hc : u = u1 => h hc.symm)]
        · rw [if_neg hlt, if_neg h]

theorem pricesD_cons (row : Dict) (t : List Dict) (u : String) :
    pricesD (row :: t) u
      = match rowLow row with
        | none => pricesD t u
        | some (u1, q) => if u1 = u then q :: pricesD t u else pricesD t u := by
  rcases hr : rowLow row with _ | ⟨u1, q⟩
  · simp [pricesD, List.filterMap_cons, hr]
  · by_cases h : u1 = u
    · simp [pricesD, List.filterMap_cons, hr, h]
    · simp [pricesD, List.filterMap_cons, hr, h]

theorem lowsGet_foldl (rows : List Dict) : ∀ (m : Lows) (u : String),
    lowsGet (rows.foldl atlStep m) u = dFoldMin (lowsGet m u) (pricesD rows u) := by
  induction rows with
  | nil => intro m u; rfl
  | cons row t ih =>
    intro m u
    rw [List.foldl_cons, ih, pricesD_cons, lowsGet_atlStep]
    rcases hr : rowLow row with _ | ⟨u1, q⟩
    · rfl
    · dsimp only
      by_cases h : u1 = u
      · rw [if_pos h, if_pos h]
        rfl
      · rw [if_neg h, if_neg h]

theorem dFoldMin_some (l : List DecNum) : ∀ (acc : Option DecNum) (d : DecNum),
    dFoldMin acc l = some d →
    (d ∈ l ∨ acc = some d)
    ∧ (∀ x ∈ l, d.toQ ≤ x.toQ)
    ∧ (∀ c, acc = some c → d.toQ ≤ c.toQ) := by
  induction l with
  | nil =>
    intro acc d h
    refine ⟨Or.inr h, by simp, fun c hc => ?_⟩
    have ha : acc = some d := h
    rw [hc] at ha
    cases ha
    exact le_refl _
  | cons q t ih =>
    intro acc d h
    rw [dFoldMin, List.foldl_cons] at h
    obtain ⟨hmem, hall, hacc⟩ := ih (stepMin acc q) d h
    rcases acc with _ | a
    · have hdq : d.toQ ≤ q.toQ := hacc q rfl
      refine ⟨?_, ?_, ?_⟩
      · rcases hmem with hm | hm
        · exact Or.inl (List.mem_cons_of_mem _ hm)
        · rw [stepMin] at hm
          cases hm
          exact Or.inl (List.mem_cons_self _ _)
      · intro x hx
        rcases List.mem_cons.mp hx with hx | hx
        · exact hx ▸ hdq
        · exact hall x hx
      · intro c hc
        cases hc
    · have hs : stepMin (some a) q = some (if q.ltB a then q else a) := rfl
      have hds : d.toQ ≤ (if q.ltB a then q else a).toQ := hacc _ hs
      have hsq : (if q.ltB a then q else a).toQ ≤ q.toQ := by
        by_cases hlt : q.ltB a
        · rw [if_pos hlt]
        · rw [if_neg hlt]
          have := (not_iff_not.mpr (DecNum.ltB_iff q a)).mp hlt
          exact le_of_not_lt this
      have hsa : (if q.ltB a then q else a).toQ ≤ a.toQ := by
        by_cases hlt : q.ltB a
        · rw [if_pos hlt]
          exact le_of_lt ((DecNum.ltB_iff q a).mp hlt)
        · rw [if_neg hlt]
      refine ⟨?_, ?_, ?_⟩
      · rcases hmem with hm | hm
        · exact Or.inl (List.mem_cons_of_mem _ hm)
        · rw [hs] at hm
          rcases hd : q.ltB a with _ | _
          · rw [hd] at hm
            simp only [Bool.false_eq_true, if_false, Option.some_inj] at hm
            exact Or.inr (by rw [hm])
          · rw [hd] at hm
            simp only [if_true, Option.some_inj] at hm
            exact Or.inl (hm ▸ List.mem_cons_self _ _)
      · intro x hx
        rcases List.mem_cons.mp hx with hx | hx
        · exact hx ▸ hds.trans hsq
        · exact hall x hx
      · intro c hc
        cases hc
        exact hds.trans hsa

theorem dFoldMin_none (l : List DecNum) : ∀ acc,
    dFoldMin acc l = none ↔ (acc = none ∧ l = []) := by
  induction l with
  | nil => intro acc; simp [dFoldMin]
  | cons q t ih =>
    intro acc
    rw [dFoldMin, List.foldl_cons]
    constructor
    · intro h
      obtain ⟨hs, _⟩ := (ih (stepMin acc q)).mp h
      cases hs
    · intro ⟨_, h⟩
      cases h

theorem atl_skip_filter (h : List Dict) : ∀ m : Lows,
    h.foldl atlStep m
      = (h.filter (fun r => (rowLow r).isSome)).foldl atlStep m := by
  induction h with
  | nil => intro m; rfl
  | cons row t ih =>
    intro m
    rcases hr : rowLow row with _ | p
    · have hstep : atlStep m row = m := by rw [atlStep, hr]
      rw [List.foldl_cons, hstep, List.filter_cons, if_neg (by simp [hr]),
        ih]
    · rw [List.foldl_cons, List.filter_cons, if_pos (by simp [hr]),
        List.foldl_cons, ih]

/-- C3: the all-time-low computation considers only records whose price
parses as a numeric `Money` value — rows tagged `Sold Out`, `N/A`,
`Error` or with unparseable prices contribute nothing (dropping them
leaves the result unchanged) — every retained entry is the minimum
numeric price for its URL (and a URL has no entry exactly when it has no
`Money` record), and the computation is deterministic in the history
contents. -/
theorem c3_all_time_lows_min (h : List Dict) (url : String) (d : DecNum)
    (hq : lowsGet (get_all_time_lows h) url = some d) :
    (d.toQ ∈ moneyPrices h url ∧ ∀ x ∈ moneyPrices h url, d.toQ ≤ x)
    ∧ (∀ u2, lowsGet (get_all_time_lows h) u2 = none ↔ moneyPrices h u2 = [])
    ∧ get_all_time_lows h
        = get_all_time_lows (h.filter (fun r => (rowLow r).isSome))
    ∧ ∀ h2 : List Dict, h2 = h → get_all_time_lows h2 = get_all_time_lows h := by
  have hfold : ∀ u2, lowsGet (get_all_time_lows h) u2
      = dFoldMin none (pricesD h u2) := by
    intro u2
    rw [get_all_time_lows, lowsGet_foldl]
    rfl
  rw [hfold] at hq
  obtain ⟨hmem, hall, _⟩ := dFoldMin_some _ _ _ hq
  have hd : d ∈ pricesD h url := by
    rcases hmem with hm | hm
    · exact hm
    · cases hm
  refine ⟨⟨?_, ?_⟩, ?_, ?_, ?_⟩
  · rw [moneyPrices_eq]
    exact List.mem_map_of_mem _ hd
  · intro x hx
    rw [moneyPrices_eq] at hx
    obtain ⟨y, hy, hxy⟩ := List.mem_map.mp hx
    exact hxy ▸ hall y hy
  · intro u2
    rw [hfold, dFoldMin_none, moneyPrices_eq]
    simp
  · rw [get_all_time_lows, get_all_time_lows, atl_skip_filter]
  · intro h2 he
    rw [he]

/-- C3 witness: a history with two numeric records, one `Sold Out` and
one `Error` record for URL `"u"`; the retained low is 3 dollars. -/
theorem c3_witness :
    lowsGet (get_all_time_lows
      [[("Price", "$5.00"), ("URL", "u")],
       [("Price", "$3.00"), ("URL", "u")],
       [("Price", "Sold Out"), ("URL", "u")],
       [("Price", "Error"), ("URL", "u")]]) "u" = some ⟨300, 2⟩
    ∧ DecNum.toQ ⟨300, 2⟩ ∈ moneyPrices
        [[("Price", "$5.00"), ("URL", "u")],
         [("Price", "$3.00"), ("URL", "u")],
         [("Price", "Sold Out"), ("URL", "u")],
         [("Price", "Error"), ("URL", "u")]] "u" :=
  ⟨by decide,
   ((c3_all_time_lows_min
      [[("Price", "$5.00"), ("URL", "u")],
       [("Price", "$3.00"), ("URL", "u")],
       [("Price", "Sold Out"), ("URL", "u")],
       [("Price", "Error"), ("URL", "u")]] "u" ⟨300, 2⟩ (by decide)).1).1⟩

theorem dGetD_dSet (d : Dict) (k k1 v v0 : String) :
    dGetD (dSet d k v) k1 v0 = if k1 = k then v else dGetD d k1 v0 := by
  rw [dGetD, dGet_dSet]
  by_cases h : k1 = k <;> simp [h, dGetD]

theorem dGetD_dGetD (d : Dict) (k x : String) :
    dGetD d k (dGetD d k x) = dGetD d k x := by
  rcases h : dGet d k with _ | w <;> simp [dGetD, h]

/-- `processRow` never changes a row's `URL` cell. -/
theorem dGet_processRow_URL (now : String) (fresh : List Dict)
    (lows : Lows) (row : Dict) :
    dGet (processRow now fresh lows row) "URL" = dGet row "URL" := by
  unfold processRow
  by_cases hurl : pyStrip (dGetD row "URL" "") = ""
  · rw [if_pos hurl]
  · rw [if_neg hurl]
    (repeat' split) <;> simp_all [dGet_dSet] <;>
      (repeat' split) <;> simp_all [dGet_dSet]

/-- Reprocessing an already-processed row with the same fresh batch,
aggregate map and timestamp changes nothing. -/
theorem processRow_idem (now : String) (fresh : List Dict) (lows : Lows)
    (row : Dict) :
    processRow now fresh lows (processRow now fresh lows row)
      = processRow now fresh lows row := by
  by_cases hu : pyStrip (dGetD row "URL" "") = ""
  · have h1 : processRow now fresh lows row = row := by
      unfold processRow
      rw [if_pos hu]
    rw [h1]
    exact h1
  · rcases hfind : fresh.find?
        (fun d => pyStrip (dGetD row "URL" "") == pyStrip (dGetD d "URL" ""))
        with _ | data
    · rcases hl : lowsGet lows (pyStrip (dGetD row "URL" "")) with _ | q <;>
        rcases hra : dGet row "All Time Low Price" with _ | a <;>
        simp [processRow, hu, hfind, hl, hra, dGet_dSet, dGetD_dSet,
          dGetD_dGetD, dSet_of_dGet_eq]
    · rcases hp : dGet data "Price" with _ | p <;>
        rcases hrp : dGet row "Price" with _ | w <;>
        rcases hl : lowsGet lows (pyStrip (dGetD row "URL" "")) with _ | q <;>
        rcases hra : dGet row "All Time Low Price" with _ | a <;>
        simp [processRow, hu, hfind, hp, hrp, hl, hra, dGet_dSet, dGetD_dSet,
          dGetD_dGetD, dSet_of_dGet_eq]

theorem trimLead_head (l : List Char) (c : Char)
    (h : (trimLead l).head? = some c) : isSpc c = false := by
  induction l with
  | nil => simp [trimLead] at h
  | cons a t ih =>
    by_cases ha : isSpc a
    · rw [trimLead, List.dropWhile_cons, if_pos ha] at h
      exact ih h
    · rw [trimLead, List.dropWhile_cons, if_neg ha] at h
      simp only [List.head?_cons, Option.some_inj] at h
      subst h
      simpa using ha

theorem trimLead_eq_self (l : List Char)
    (h : ∀ c, l.head? = some c → isSpc c = false) : trimLead l = l := by
  cases l with
  | nil => rfl
  | cons a t =>
    rw [trimLead, List.dropWhile_cons, if_neg (by simp [h a rfl])]

theorem trimLead_getLast (l : List Char) (h : trimLead l ≠ []) :
    (trimLead l).getLast? = l.getLast? := by
  induction l with
  | nil => rfl
  | cons a t ih =>
    by_cases ha : isSpc a
    · rw [trimLead, List.dropWhile_cons, if_pos ha]
      rw [trimLead, List.dropWhile_cons, if_pos ha] at h
      rw [trimLead] at ih
      cases t with
      | nil => simp at h
      | cons b t2 =>
        rw [ih h, List.getLast?_cons_cons]
    · rw [trimLead, List.dropWhile_cons, if_neg ha]

theorem stripL_idem (l : List Char) : stripL (stripL l) = stripL l := by
  rcases hb : trimLead ((trimLead l).reverse) with _ | ⟨c, t⟩
  · have h1 : stripL l = [] := by rw [stripL, hb]; rfl
    rw [h1]
    rfl
  · have hbne : trimLead ((trimLead l).reverse) ≠ [] := by rw [hb]; simp
    have hBhead : ∀ c0, (trimLead ((trimLead l).reverse)).head? = some c0 →
        isSpc c0 = false := fun c0 hc0 => trimLead_head _ c0 hc0
    have hBlast : (trimLead ((trimLead l).reverse)).getLast?
        = (trimLead l).reverse.getLast? := trimLead_getLast _ hbne
    have hlastA : (trimLead l).reverse.getLast? = (trimLead l).head? := by
      rw [List.getLast?_reverse]
    have hBlastNS : ∀ c0,
        (trimLead ((trimLead l).reverse)).getLast? = some c0 →
        isSpc c0 = false := by
      intro c0 hc0
      rw [hBlast, hlastA] at hc0
      exact trimLead_head _ c0 hc0
    have hstep1 : trimLead ((stripL l).reverse)
        = trimLead ((trimLead l).reverse) := by
      rw [stripL, List.reverse_reverse]
      exact trimLead_eq_self _ hBhead
    have hstep2 : trimLead (stripL l) = stripL l := by
      apply trimLead_eq_self
      intro c0 hc0
      rw [stripL, List.head?_reverse] at hc0
      exact hBlastNS c0 hc0
    rw [stripL, hstep2, hstep1, stripL]

theorem pyStrip_idem (s : String) : pyStrip (pyStrip s) = pyStrip s :=
  congrArg String.mk (stripL_idem s.data)

theorem dGetD_cons (k2 v2 : String) (t : Dict) (k1 v0 : String) :
    dGetD ((k2, v2) :: t) k1 v0 = if k2 = k1 then v2 else dGetD t k1 v0 := by
  rw [dGetD, dGet_cons]
  by_cases h : k2 = k1 <;> simp [h, dGetD]

theorem dGetD_nil (k1 v0 : String) : dGetD [] k1 v0 = v0 := rfl

/-- A row in the exact shape `update_csv` creates for a new URL is a
fixpoint of `processRow` (same batch, map and timestamp). -/
theorem processRow_newRowShape (now : String) (fresh : List Dict)
    (lows : Lows) (url e dd lo pr atl : String) (data : Dict)
    (hs : pyStrip url = url) (hne : url ≠ "")
    (hfd : fresh.find? (fun d => url == pyStrip (dGetD d "URL" ""))
      = some data)
    (he : e = dGetD data "Event Title" "N/A")
    (hdd : dd = dGetD data "Date" "N/A")
    (hlo : lo = dGetD data "Location" "N/A")
    (hpr : pr = dGetD data "Price" "N/A")
    (hatl : atl = match lowsGet lows url with
      | some q => fmtDec q
      | none => "N/A") :
    processRow now fresh lows
      [("Time", now), ("Event Title", e), ("Date", dd), ("Location", lo),
       ("Price", pr), ("All Time Low Price", atl), ("URL", url)]
      = [("Time", now), ("Event Title", e), ("Date", dd), ("Location", lo),
         ("Price", pr), ("All Time Low Price", atl), ("URL", url)] := by
  have hgu : dGetD
      [("Time", now), ("Event Title", e), ("Date", dd), ("Location", lo),
       ("Price", pr), ("All Time Low Price", atl), ("URL", url)] "URL" ""
      = url := by
    simp [dGetD_cons]
  unfold processRow
  rw [hgu, hs, if_neg hne, hfd]
  rcases hp : dGet data "Price" with _ | p <;>
    rcases hl : lowsGet lows url with _ | q <;>
    subst he hdd hlo hpr hatl <;>
    simp [hp, hl, dSet, dGet_cons, dGetD_cons, dGetD_dGetD] <;>
    simp [dGetD, hp]

/-- A row created by the new-URL phase is a fixpoint of the existing-row
phase. -/
theorem processRow_mkNewRow (now : String) (fresh : List Dict)
    (lows : Lows) (url : String) (nr : Dict)
    (hs : pyStrip url = url) (hne : url ≠ "")
    (hmk : mkNewRow now lows fresh url = some nr) :
    processRow now fresh lows nr = nr := by
  rw [mkNewRow] at hmk
  rcases hfd : fresh.find? (fun d => url == pyStrip (dGetD d "URL" ""))
      with _ | data
  · rw [hfd] at hmk
    cases hmk
  · rw [hfd] at hmk
    have h2 := Option.some.inj hmk
    subst h2
    exact processRow_newRowShape now fresh lows url _ _ _ _ _ data hs hne hfd
      rfl rfl rfl rfl rfl

/-- The `URL` cell of a created new row is the (stripped) URL it was
created for. -/
theorem dGet_mkNewRow_URL (now : String) (fresh : List Dict)
    (lows : Lows) (url : String) (nr : Dict)
    (hmk : mkNewRow now lows fresh url = some nr) :
    dGet nr "URL" = some url := by
  rw [mkNewRow] at hmk
  rcases hfd : fresh.find? (fun d => url == pyStrip (dGetD d "URL" ""))
      with _ | data
  · rw [hfd] at hmk
    cases hmk
  · rw [hfd] at hmk
    have h2 := Option.some.inj hmk
    subst h2
    simp [dGet_cons]

/-- Every member of `scraped_urls` is a stripped URL of some fresh
result, and the new-row construction finds a matching fresh dict for
it. -/
theorem scrapedUrls_mem (fresh : List Dict) (url : String)
    (h : url ∈ scrapedUrls fresh) :
    pyStrip url = url
    ∧ ∃ data, fresh.find? (fun d => url == pyStrip (dGetD d "URL" ""))
        = some data := by
  rw [scrapedUrls, List.mem_filterMap] at h
  obtain ⟨d, hd, hval⟩ := h
  rcases hu : dGet d "URL" with _ | u
  · rw [hu] at hval
    cases hval
  · rw [hu] at hval
    dsimp only at hval
    by_cases hne : u ≠ ""
    · rw [if_pos hne] at hval
      simp only [Option.some_inj] at hval
      have hsu : pyStrip url = url := by
        rw [← hval, pyStrip_idem]
      refine ⟨hsu, ?_⟩
      have hsome : (fresh.find?
          (fun d2 => url == pyStrip (dGetD d2 "URL" ""))).isSome := by
        rw [List.find?_isSome]
        refine ⟨d, hd, ?_⟩
        rw [dGetD, hu]
        simp [← hval]
      rcases hf : fresh.find? (fun d2 => url == pyStrip (dGetD d2 "URL" ""))
          with _ | data
      · rw [hf] at hsome
        cases hsome
      · exact ⟨data, rfl⟩
    · rw [if_neg hne] at hval
      cases hval

/-- Processing existing rows does not change the set of main-CSV URLs. -/
theorem urlsInMain_map_processRow (now : String) (fresh : List Dict)
    (lows : Lows) (rows : List Dict) :
    urlsInMain (rows.map (processRow now fresh lows)) = urlsInMain rows := by
  induction rows with
  | nil => rfl
  | cons r t ih =>
    rw [List.map_cons, urlsInMain, List.filterMap_cons, dGet_processRow_URL,
      urlsInMain, List.filterMap_cons]
    rcases hu : dGet r "URL" with _ | u
    · exact ih
    · dsimp only
      by_cases hne : u ≠ ""
      · rw [if_pos hne]
        rw [urlsInMain, urlsInMain] at ih
        rw [ih]
      · rw [if_neg hne]
        exact ih

theorem urlsInMain_append (a b : List Dict) :
    urlsInMain (a ++ b) = urlsInMain a ++ urlsInMain b := by
  rw [urlsInMain, urlsInMain, urlsInMain, List.filterMap_append]

set_option maxHeartbeats 2000000 in
/-- C2 (amended): merging the same fresh batch into the output of a first
merge (same timestamp and aggregate map) reproduces that output exactly,
provided no fresh result's URL is a nonempty string of pure whitespace
(equivalently, the empty string is not among the batch's stripped URLs —
guaranteed by the program's URL intake, which strips and drops empty
lines). -/
theorem c2_merge_idempotent (now : String) (rows fresh : List Dict)
    (lows : Lows) (hws : "" ∉ scrapedUrls fresh) :
    mergeRows now (mergeRows now rows fresh lows) fresh lows
      = mergeRows now rows fresh lows := by
  have hmapP : ∀ l : List Dict, (∀ x ∈ l, processRow now fresh lows x = x) →
      l.map (processRow now fresh lows) = l := by
    intro l h
    calc l.map (processRow now fresh lows) = l.map id := List.map_congr_left h
    _ = l := List.map_id l
  have hnew_fix : ∀ nr ∈ (newUrls rows fresh).filterMap
      (mkNewRow now lows fresh), processRow now fresh lows nr = nr := by
    intro nr hnr
    rw [List.mem_filterMap] at hnr
    obtain ⟨u, hu, hmk⟩ := hnr
    rw [newUrls, List.mem_filter] at hu
    obtain ⟨hud, _⟩ := hu
    rw [List.mem_dedup] at hud
    obtain ⟨hsu, _⟩ := scrapedUrls_mem fresh u hud
    have hne : u ≠ "" := fun hc => hws (hc ▸ hud)
    exact processRow_mkNewRow now fresh lows u nr hsu hne hmk
  have hPP : (rows.map (processRow now fresh lows)).map
      (processRow now fresh lows) = rows.map (processRow now fresh lows) := by
    rw [List.map_map]
    apply List.map_congr_left
    intro r _
    exact processRow_idem now fresh lows r
  have hmapout : (mergeRows now rows fresh lows).map (processRow now fresh lows)
      = mergeRows now rows fresh lows := by
    rw [mergeRows, List.map_append, hPP, hmapP _ hnew_fix]
  have hscr_sub : ∀ u ∈ scrapedUrls fresh,
      u ∈ urlsInMain (mergeRows now rows fresh lows) := by
    intro u hus
    have hne : u ≠ "" := fun hc2 => hws (hc2 ▸ hus)
    rw [mergeRows, urlsInMain_append, List.mem_append,
      urlsInMain_map_processRow]
    by_cases hc : u ∈ urlsInMain rows
    · exact Or.inl hc
    · right
      have hmemnew : u ∈ newUrls rows fresh := by
        rw [newUrls, List.mem_filter, List.mem_dedup]
        exact ⟨hus, by simpa using hc⟩
      obtain ⟨hsu, data, hfd⟩ := scrapedUrls_mem fresh u hus
      have hnr : ∃ nr, mkNewRow now lows fresh u = some nr := by
        rw [mkNewRow, hfd]
        exact ⟨_, rfl⟩
      obtain ⟨nr, hmk⟩ := hnr
      have hnrmem : nr ∈ (newUrls rows fresh).filterMap
          (mkNewRow now lows fresh) :=
        List.mem_filterMap.mpr ⟨u, hmemnew, hmk⟩
      rw [urlsInMain, List.mem_filterMap]
      refine ⟨nr, hnrmem, ?_⟩
      rw [dGet_mkNewRow_URL now fresh lows u nr hmk]
      dsimp only
      rw [if_pos hne, hsu]
  have hnew2 : newUrls (mergeRows now rows fresh lows) fresh = [] := by
    rw [newUrls, List.filter_eq_nil_iff]
    intro u hu
    rw [List.mem_dedup] at hu
    simp [hscr_sub u hu]
  conv_lhs => rw [mergeRows]
  rw [hmapout, hnew2]
  simp

/-- C2 counterexample: one fresh result whose URL is a single space (truthy
in Python, but stripped to the empty string) is re-added as a second
identical row on the second merge, so merging the same batch twice does
not reproduce the same end state. -/
theorem c2_counterexample :
    mergeRows "t" (mergeRows "t" [] [[("URL", " ")]] []) [[("URL", " ")]] []
      ≠ mergeRows "t" [] [[("URL", " ")]] [] := by
  decide

/-- C2 witness: an ordinary one-row snapshot and one fresh result; the
second merge reproduces the first merge's output. -/
theorem c2_witness :
    "" ∉ scrapedUrls [[("URL", "u"), ("Price", "$5.00")]]
    ∧ mergeRows "t" (mergeRows "t" [[("URL", "u")]]
        [[("URL", "u"), ("Price", "$5.00")]] [("u", ⟨300, 2⟩)])
        [[("URL", "u"), ("Price", "$5.00")]] [("u", ⟨300, 2⟩)]
      = mergeRows "t" [[("URL", "u")]]
        [[("URL", "u"), ("Price", "$5.00")]] [("u", ⟨300, 2⟩)] :=
  ⟨by decide,
   c2_merge_idempotent "t" [[("URL", "u")]]
     [[("URL", "u"), ("Price", "$5.00")]] [("u", ⟨300, 2⟩)] (by decide)⟩

theorem digitsOf_lt (m : ℕ) : ∀ d ∈ digitsOf m, d < 10 := by
  induction m using Nat.strong_induction_on with
  | _ m ih =>
    rw [digitsOf_eq]
    by_cases hm : m < 10
    · rw [if_pos hm]
      intro d hd
      simp only [List.mem_singleton] at hd
      omega
    · rw [if_neg hm]
      intro d hd
      rcases List.mem_append.mp hd with h | h
      · exact ih (m / 10) (Nat.div_lt_self (by omega) (by omega)) d h
      · simp only [List.mem_singleton] at h
        omega

theorem digitsOf_ne_nil (m : ℕ) : digitsOf m ≠ [] := by
  rw [digitsOf_eq]
  by_cases hm : m < 10
  · simp [hm]
  · simp [hm]

theorem charVal_digitChar (d : ℕ) (h : d < 10) :
    charVal (digitChar d) = d := by
  interval_cases d <;> decide

theorem digitChar_isDigit (d : ℕ) (h : d < 10) :
    (digitChar d).isDigit = true := by
  interval_cases d <;> decide

theorem digitChar_keep (d : ℕ) (h : d < 10) :
    digitChar d ≠ '$' ∧ digitChar d ≠ ',' ∧ isSpc (digitChar d) = false := by
  interval_cases d <;> refine ⟨by decide, by decide, by decide⟩

theorem foldl_digits_map (ds : List ℕ) (h : ∀ d ∈ ds, d < 10) : ∀ a : ℕ,
    (ds.map digitChar).foldl (fun a c => 10 * a + charVal c) a
      = ds.foldl (fun a d => 10 * a + d) a := by
  induction ds with
  | nil => intro a; rfl
  | cons d t ih =>
    intro a
    rw [List.map_cons, List.foldl_cons, List.foldl_cons,
      charVal_digitChar d (h d (List.mem_cons_self _ _))]
    exact ih (fun x hx => h x (List.mem_cons_of_mem _ hx)) _

theorem foldl_digitsOf (m : ℕ) :
    (digitsOf m).foldl (fun a d => 10 * a + d) 0 = m := by
  induction m using Nat.strong_induction_on with
  | _ m ih =>
    rw [digitsOf_eq]
    by_cases hm : m < 10
    · simp [hm]
    · rw [if_neg hm, List.foldl_append,
        ih (m / 10) (Nat.div_lt_self (by omega) (by omega))]
      simp only [List.foldl_cons, List.foldl_nil]
      omega

theorem valDigits_digitsOf (m : ℕ) :
    valDigits ((digitsOf m).map digitChar) = m := by
  rw [valDigits, foldl_digits_map (digitsOf m) (digitsOf_lt m) 0,
    foldl_digitsOf]

theorem valDigits_pad2 (r : ℕ) (h : r < 100) : valDigits (pad2 r) = r := by
  rw [pad2, valDigits]
  simp only [List.foldl_cons, List.foldl_nil]
  rw [charVal_digitChar (r / 10) (by omega), charVal_digitChar (r % 10)
    (by omega)]
  omega

theorem group3R_eq_self_short (l : List Char)
    (h : ∀ (a b c d : Char) (rest : List Char),
      l = a :: b :: c :: d :: rest → False) : group3R l = l := by
  rcases l with _ | ⟨a, _ | ⟨b, _ | ⟨c, _ | ⟨d, rest⟩⟩⟩⟩
  · rfl
  · rfl
  · rfl
  · rfl
  · exact (h a b c d rest rfl).elim

theorem filter_group3R (p : Char → Bool) (hp : p ',' = false)
    (l : List Char) : (group3R l).filter p = l.filter p := by
  induction l using group3R.induct with
  | case1 a b c d rest ih =>
    simp only [group3R, List.filter_cons, hp, Bool.false_eq_true, if_false,
      ih]
  | case2 l h => rw [group3R_eq_self_short l h]

theorem filter_commaFmt (m : ℕ) :
    (commaFmt m).filter (fun c => !(c = '$' || c = ','))
      = (digitsOf m).map digitChar := by
  rw [commaFmt, List.filter_reverse, filter_group3R _ (by decide),
    List.filter_reverse, List.reverse_reverse]
  rw [List.filter_eq_self]
  intro c hc
  obtain ⟨d, hd, hcd⟩ := List.mem_map.mp hc
  have hk := digitChar_keep d (digitsOf_lt m d hd)
  subst hcd
  simp [hk.1, hk.2.1]

theorem stripL_eq_self (l : List Char)
    (h1 : ∀ c, l.head? = some c → isSpc c = false)
    (h2 : ∀ c, l.getLast? = some c → isSpc c = false) :
    stripL l = l := by
  rw [stripL, trimLead_eq_self l h1, trimLead_eq_self _ (by
    intro c hc
    rw [List.head?_reverse] at hc
    exact h2 c hc), List.reverse_reverse]

theorem whileAppend (p : Char → Bool) (l1 l2 : List Char)
    (h : ∀ c ∈ l1, p c = true) :
    (l1 ++ l2).takeWhile p = l1 ++ l2.takeWhile p
    ∧ (l1 ++ l2).dropWhile p = l2.dropWhile p := by
  induction l1 with
  | nil => simp
  | cons c t ih =>
    have hc := h c (List.mem_cons_self _ _)
    have iht := ih (fun x hx => h x (List.mem_cons_of_mem _ hx))
    constructor
    · rw [List.cons_append, List.takeWhile_cons, if_pos hc, iht.1,
        List.cons_append]
    · rw [List.cons_append, List.dropWhile_cons, if_pos hc, iht.2]

theorem parseDecimal_digits (ds : List Char)
    (hds : ∀ c ∈ ds, c.isDigit = true) (hne : ds ≠ []) :
    parseDecimal ds = some ⟨valDigits ds, 0⟩ := by
  have ht := whileAppend Char.isDigit ds [] hds
  rw [List.append_nil] at ht
  rw [parseDecimal]
  simp only [ht.1, ht.2, List.takeWhile_nil, List.dropWhile_nil,
    List.append_nil]
  rw [if_neg (by simp [hne])]

theorem parseDecimal_digits_cents (ds : List Char) (a b : Char)
    (hds : ∀ c ∈ ds, c.isDigit = true) (hne : ds ≠ [])
    (ha : a.isDigit = true) (hb : b.isDigit = true) :
    parseDecimal (ds ++ '.' :: [a, b])
      = some ⟨valDigits ds * 100 + valDigits [a, b], 2⟩ := by
  have ht := whileAppend Char.isDigit ds ('.' :: [a, b]) hds
  have hdot : ('.' :: [a, b]).takeWhile Char.isDigit = [] := by
    rw [List.takeWhile_cons, if_neg (by decide)]
  have hdot2 : ('.' :: [a, b]).dropWhile Char.isDigit = '.' :: [a, b] := by
    rw [List.dropWhile_cons, if_neg (by decide)]
  rw [parseDecimal]
  simp only [ht.1, ht.2, hdot, hdot2, List.append_nil]
  rw [if_pos (by simp [ha, hb, hne])]
  norm_num

theorem cleanNum_fmtCents (n : ℕ) : cleanNum (fmtCents n) = some ⟨n, 2⟩ := by
  have hfilter : (fmtCents n).data.filter (fun c => !(c = '$' || c = ','))
      = (digitsOf (n / 100)).map digitChar ++ '.' :: pad2 (n % 100) := by
    have hdata : (fmtCents n).data
        = '$' :: (commaFmt (n / 100) ++ '.' :: pad2 (n % 100)) := rfl
    rw [hdata, List.filter_cons, if_neg (by decide), List.filter_append,
      filter_commaFmt]
    congr 1
    rw [List.filter_eq_self]
    intro c hc
    simp only [pad2, List.mem_cons, List.not_mem_nil, or_false] at hc
    rcases hc with hc | hc | hc
    · subst hc
      decide
    · subst hc
      have hk := digitChar_keep (n % 100 / 10) (by omega)
      simp [hk.1, hk.2.1]
    · subst hc
      have hk := digitChar_keep (n % 100 % 10) (by omega)
      simp [hk.1, hk.2.1]
  have hsl : stripL ((digitsOf (n / 100)).map digitChar
        ++ '.' :: pad2 (n % 100))
      = (digitsOf (n / 100)).map digitChar ++ '.' :: pad2 (n % 100) := by
    apply stripL_eq_self
    · intro c hc
      rcases hds : digitsOf (n / 100) with _ | ⟨d0, dt⟩
      · exact absurd hds (digitsOf_ne_nil _)
      · rw [hds] at hc
        simp only [List.map_cons, List.cons_append, List.head?_cons,
          Option.some_inj] at hc
        subst hc
        exact (digitChar_keep d0 (digitsOf_lt (n / 100) d0
          (hds ▸ List.mem_cons_self _ _))).2.2
    · intro c hc
      have hsplit : (digitsOf (n / 100)).map digitChar
          ++ '.' :: pad2 (n % 100)
          = ((digitsOf (n / 100)).map digitChar
              ++ ['.', digitChar (n % 100 / 10)])
            ++ [digitChar (n % 100 % 10)] := by
        rw [pad2, List.append_assoc]
        rfl
      rw [hsplit, List.getLast?_concat] at hc
      simp only [Option.some_inj] at hc
      subst hc
      exact (digitChar_keep (n % 100 % 10) (by omega)).2.2
  rw [cleanNum, hfilter, hsl, pad2, parseDecimal_digits_cents _ _ _
    (by
      intro c hc
      obtain ⟨d, hd, hcd⟩ := List.mem_map.mp hc
      exact hcd ▸ digitChar_isDigit d (digitsOf_lt _ d hd))
    (by
      intro hc
      exact digitsOf_ne_nil (n / 100) (List.map_eq_nil_iff.mp hc))
    (digitChar_isDigit _ (by omega)) (digitChar_isDigit _ (by omega))]
  have hv1 : valDigits ((digitsOf (n / 100)).map digitChar) = n / 100 :=
    valDigits_digitsOf (n / 100)
  have hv2 : valDigits [digitChar (n % 100 / 10), digitChar (n % 100 % 10)]
      = n % 100 := by
    have h3 := valDigits_pad2 (n % 100) (by omega)
    rw [pad2] at h3
    exact h3
  rw [hv1, hv2]
  have h4 : n / 100 * 100 + n % 100 = n := by omega
  rw [h4]

theorem commaGroups_eq_self_short (l : List Char)
    (h : ∀ (a b c d : Char) (rest : List Char),
      l = a :: b :: c :: d :: rest → False) : commaGroups l = ([], l) := by
  rcases l with _ | ⟨a, _ | ⟨b, _ | ⟨c, _ | ⟨d, rest⟩⟩⟩⟩
  · rfl
  · rfl
  · rfl
  · rfl
  · exact (h a b c d rest rfl).elim

theorem commaGroups_mem (l : List Char) :
    ∀ c0 ∈ (commaGroups l).1, c0 = ',' ∨ c0.isDigit = true := by
  induction l using commaGroups.induct with
  | case1 x a b c rest hcond ih =>
    intro c0 hc0
    rw [commaGroups, if_pos hcond] at hc0
    simp only [List.mem_cons] at hc0
    simp only [Bool.and_eq_true, decide_eq_true_eq] at hcond
    rcases hc0 with h | h | h | h | h
    · exact h ▸ Or.inl hcond.1.1.1
    · exact h ▸ Or.inr hcond.1.1.2
    · exact h ▸ Or.inr hcond.1.2
    · exact h ▸ Or.inr hcond.2
    · exact ih c0 h
  | case2 x a b c rest hcond =>
    intro c0 hc0
    rw [commaGroups, if_neg hcond] at hc0
    simp at hc0
  | case3 l h =>
    intro c0 hc0
    rw [commaGroups_eq_self_short l h] at hc0
    simp at hc0

theorem centsPart_shape (r : List Char) :
    centsPart r = []
    ∨ ∃ a b, centsPart r = ['.', a, b] ∧ a.isDigit = true
        ∧ b.isDigit = true := by
  rcases r with _ | ⟨c, _ | ⟨a, _ | ⟨b, rest⟩⟩⟩
  · exact Or.inl rfl
  · exact Or.inl rfl
  · exact Or.inl rfl
  · rw [centsPart]
    by_cases hcond : (c = '.' && a.isDigit && b.isDigit) = true
    · rw [if_pos hcond]
      simp only [Bool.and_eq_true, decide_eq_true_eq] at hcond
      right
      exact ⟨a, b, by rw [hcond.1.1], hcond.1.2, hcond.2⟩
    · rw [if_neg hcond]
      exact Or.inl rfl

theorem captureBody_shape (l2 cap : List Char)
    (h : captureBody l2 = some cap) :
    ∃ d1 g cp, cap = d1 ++ g ++ cp ∧ d1 ≠ []
    ∧ (∀ c ∈ d1, c.isDigit = true)
    ∧ (∀ c ∈ g, c = ',' ∨ c.isDigit = true)
    ∧ (cp = [] ∨ ∃ a b, cp = ['.', a, b] ∧ a.isDigit = true
        ∧ b.isDigit = true) := by
  simp only [captureBody] at h
  by_cases hd : ((l2.takeWhile Char.isDigit).take 3).isEmpty = true
  · rw [if_pos hd] at h
    cases h
  · rw [if_neg hd] at h
    simp only [Option.some_inj] at h
    refine ⟨(l2.takeWhile Char.isDigit).take 3,
      (commaGroups (l2.drop ((l2.takeWhile Char.isDigit).take 3).length)).1,
      centsPart
        (commaGroups
          (l2.drop ((l2.takeWhile Char.isDigit).take 3).length)).2,
      h.symm, ?_, ?_, ?_, ?_⟩
    · intro hc
      rw [hc] at hd
      exact hd rfl
    · intro c hc
      exact List.mem_takeWhile_imp (List.take_subset 3 _ hc)
    · exact commaGroups_mem _
    · exact centsPart_shape _

theorem matchAfterDollar_body (r cap : List Char)
    (h : matchAfterDollar r = some cap) :
    ∃ l2, captureBody l2 = some cap := by
  cases r with
  | nil =>
    rw [matchAfterDollar.eq_def] at h
    cases h
  | cons c rest =>
    rw [matchAfterDollar.eq_def] at h
    dsimp only at h
    by_cases hc : c.isDigit = true
    · rw [if_pos hc] at h
      exact ⟨c :: rest, h⟩
    · rw [if_neg hc] at h
      by_cases hs : isSpc c = true
      · rw [if_pos hs] at h
        cases rest with
        | nil => cases h
        | cons d r2 =>
          dsimp only at h
          by_cases hd : d.isDigit = true
          · rw [if_pos hd] at h
            exact ⟨d :: r2, h⟩
          · rw [if_neg hd] at h
            cases h
      · rw [if_neg hs] at h
        cases h

theorem findPriceCapture_body (l : List Char) : ∀ cap : List Char,
    findPriceCapture l = some cap → ∃ l2, captureBody l2 = some cap := by
  induction l with
  | nil =>
    intro cap h
    cases h
  | cons c rest ih =>
    intro cap h
    rw [findPriceCapture] at h
    by_cases hc : c = '$'
    · rw [if_pos hc] at h
      rcases hm : matchAfterDollar rest with _ | cap2
      · rw [hm] at h
        exact ih cap h
      · rw [hm] at h
        simp only [Option.some_inj] at h
        exact h ▸ matchAfterDollar_body rest cap2 hm
    · rw [if_neg hc] at h
      exact ih cap h

theorem digit_ne_comma (c : Char) (h : c.isDigit = true) : c ≠ ',' := by
  intro hc
  rw [hc] at h
  exact absurd h (by decide)

theorem dropWhile_all (p : Char → Bool) (l : List Char)
    (h : ∀ c ∈ l, p c = true) :
    l.takeWhile p = l ∧ l.dropWhile p = [] := by
  have := whileAppend p l [] h
  rw [List.append_nil] at this
  simpa using this

theorem capture_parse (cap : List Char)
    (hshape : ∃ d1 g cp, cap = d1 ++ g ++ cp ∧ d1 ≠ []
      ∧ (∀ c ∈ d1, c.isDigit = true)
      ∧ (∀ c ∈ g, c = ',' ∨ c.isDigit = true)
      ∧ (cp = [] ∨ ∃ a b, cp = ['.', a, b] ∧ a.isDigit = true
          ∧ b.isDigit = true)) :
    ∃ dn : DecNum, parseDecimal (cap.filter (fun c => c ≠ ',')) = some dn
      ∧ dn.toQ = (capturedCents cap : ℚ) / 100 := by
  obtain ⟨d1, g, cp, hcap, hne, hd1, hg, hcp⟩ := hshape
  subst hcap
  have hfd1 : d1.filter (fun c => c ≠ ',') = d1 := by
    rw [List.filter_eq_self]
    intro c hc
    simpa using digit_ne_comma c (hd1 c hc)
  have hgdd : ∀ c ∈ g.filter (fun c => c ≠ ','), c.isDigit = true := by
    intro c hc
    rw [List.mem_filter] at hc
    rcases hg c hc.1 with h | h
    · have := hc.2
      rw [h] at this
      simp at this
    · exact h
  have hds : ∀ c ∈ d1 ++ g.filter (fun c => c ≠ ','), c.isDigit = true := by
    intro c hc
    rcases List.mem_append.mp hc with h | h
    · exact hd1 c h
    · exact hgdd c h
  have hdsne : d1 ++ g.filter (fun c => c ≠ ',') ≠ [] := by
    cases d1 with
    | nil => exact absurd rfl hne
    | cons x t => simp
  rcases hcp with hcpe | ⟨a, b, hcpeq, ha, hb⟩
  · subst hcpe
    have hfilter : (d1 ++ g ++ ([] : List Char)).filter (fun c => c ≠ ',')
        = d1 ++ g.filter (fun c => c ≠ ',') := by
      rw [List.append_nil, List.filter_append, hfd1]
    have hdw := dropWhile_all Char.isDigit _ hds
    refine ⟨⟨valDigits (d1 ++ g.filter (fun c => c ≠ ',')), 0⟩, ?_, ?_⟩
    · rw [hfilter]
      exact parseDecimal_digits _ hds hdsne
    · rw [capturedCents]
      simp only [hfilter, hdw.1, hdw.2]
      rw [DecNum.toQ]
      push_cast
      field_simp
  · subst hcpeq
    have hfcp : (['.', a, b] : List Char).filter (fun c => c ≠ ',')
        = ['.', a, b] := by
      rw [List.filter_eq_self]
      intro c hc
      simp only [List.mem_cons, List.not_mem_nil, or_false] at hc
      rcases hc with hc | hc | hc
      · rw [hc]
        decide
      · rw [hc]
        simpa using digit_ne_comma a ha
      · rw [hc]
        simpa using digit_ne_comma b hb
    have hfilter : (d1 ++ g ++ ['.', a, b]).filter (fun c => c ≠ ',')
        = (d1 ++ g.filter (fun c => c ≠ ',')) ++ '.' :: [a, b] := by
      rw [List.filter_append, List.filter_append, hfd1, hfcp,
        List.append_assoc]
    have hta := whileAppend Char.isDigit
      (d1 ++ g.filter (fun c => c ≠ ',')) ('.' :: [a, b]) hds
    have hdot : ('.' :: [a, b]).takeWhile Char.isDigit = [] := by
      rw [List.takeWhile_cons, if_neg (by decide)]
    have hdot2 : ('.' :: [a, b]).dropWhile Char.isDigit = '.' :: [a, b] := by
      rw [List.dropWhile_cons, if_neg (by decide)]
    refine ⟨⟨valDigits (d1 ++ g.filter (fun c => c ≠ ',')) * 100
      + valDigits [a, b], 2⟩, ?_, ?_⟩
    · rw [hfilter]
      exact parseDecimal_digits_cents _ a b hds hdsne ha hb
    · rw [capturedCents]
      simp only [hfilter, hta.1, hta.2, hdot, hdot2, List.append_nil]
      rw [DecNum.toQ]
      push_cast
      ring_nf

/-- C10: for every price string the extraction regex captures, the
numeric value the extractor computes (after stripping thousands
separators) is exactly `capturedCents / 100`, and re-parsing the
canonically formatted two-decimal `$`-string through
`get_all_time_lows`'s cleaning recovers exactly that value: stored
canonical prices round-trip into the all-time-low computation without
loss. -/
theorem c10_price_roundtrip (l cap : List Char)
    (h : findPriceCapture l = some cap) :
    ∃ dn : DecNum,
      parseDecimal (cap.filter (fun c => c ≠ ',')) = some dn
      ∧ dn.toQ = (capturedCents cap : ℚ) / 100
      ∧ cleanNum (fmtCents (capturedCents cap))
          = some ⟨capturedCents cap, 2⟩
      ∧ DecNum.toQ ⟨capturedCents cap, 2⟩
          = (capturedCents cap : ℚ) / 100 := by
  obtain ⟨l2, hb⟩ := findPriceCapture_body l cap h
  obtain ⟨dn, h1, h2⟩ := capture_parse cap (captureBody_shape l2 cap hb)
  refine ⟨dn, h1, h2, cleanNum_fmtCents _, ?_⟩
  rw [DecNum.toQ]
  norm_num

/-- C10 witness: the round trip at the concrete capture `"1,234.56"`. -/
theorem c10_witness :
    findPriceCapture ("from $1,234.56!").data = some ("1,234.56").data
    ∧ ∃ dn : DecNum,
      parseDecimal (("1,234.56").data.filter (fun c => c ≠ ','))
          = some dn
      ∧ dn.toQ = (capturedCents ("1,234.56").data : ℚ) / 100
      ∧ cleanNum (fmtCents (capturedCents ("1,234.56").data))
          = some ⟨capturedCents ("1,234.56").data, 2⟩
      ∧ DecNum.toQ ⟨capturedCents ("1,234.56").data, 2⟩
          = (capturedCents ("1,234.56").data : ℚ) / 100 :=
  ⟨by decide, c10_price_roundtrip ("from $1,234.56!").data
    ("1,234.56").data (by decide)⟩
